import Mathlib

/-!
Verification of the debt simplification engine of an expense-tracker backend.

The development shallowly embeds the JavaScript source:
* `calculateRawDebts` and `simplifyDebts` from the debt calculator utility
  (JS objects become insertion-ordered association lists, numbers become
  exact rationals `ℚ`, `Math.round(x*100)/100` becomes `round2`);
* the settle / finalize / create route handlers for settlement records;
* the share validation performed at expense creation time.
-/

namespace ExpenseTracker

/-! ### Definitions embedded from the source -/

/-- Association-list lookup, mirroring JS property read `m[k]`. -/
def findVal {α : Type} : List (String × α) → String → Option α
  | [], _ => none
  | (k, v) :: rest, k' => if k = k' then some v else findVal rest k'

/-- Association-list write, mirroring JS property write `m[k] = v`:
an existing key keeps its position, a new key is appended at the end
(JS objects enumerate string keys in insertion order). -/
def setVal {α : Type} : List (String × α) → String → α → List (String × α)
  | [], k, v => [(k, v)]
  | (k', v') :: rest, k, v =>
      if k' = k then (k, v) :: rest else (k', v') :: setVal rest k v

/-- One share of an expense: `{ user, shareType, shareValue }`. -/
structure Share where
  user : String
  shareType : String
  shareValue : ℚ
deriving DecidableEq

/-- An expense as consumed by the debt calculator:
`{ creator, amount, sharedAmongst }`. -/
structure Expense where
  creator : String
  amount : ℚ
  sharedAmongst : List Share
deriving DecidableEq

/-- Inner map of a raw debt matrix: creditor user to accumulated amount. -/
abbrev InnerMap := List (String × ℚ)

/-- Raw debt matrix: debtor user to inner creditor map. -/
abbrev DebtMap := List (String × InnerMap)

/-- Amount one share's user owes the creator, per share type
(`equal`, `percentage`, `fixed`; unrecognized types contribute 0). -/
def owedAmount (amount : ℚ) (s : Share) : ℚ :=
  if s.shareType = "equal" then amount * s.shareValue
  else if s.shareType = "percentage" then amount * (s.shareValue / 100)
  else if s.shareType = "fixed" then s.shareValue
  else 0

/-- Accumulate `amt` into `matrix[user][creator]`, initializing absent
entries to 0, exactly as the JS `debtMap[user][creator] += owedAmount`. -/
def addDebt (m : DebtMap) (user creator : String) (amt : ℚ) : DebtMap :=
  let inner := (findVal m user).getD []
  setVal m user (setVal inner creator ((findVal inner creator).getD 0 + amt))

/-- Process one share of an expense: the creator's own share is skipped,
any other share adds the owed amount to the matrix. -/
def processShare (creator : String) (amount : ℚ) (m : DebtMap) (s : Share) :
    DebtMap :=
  if s.user = creator then m
  else addDebt m s.user creator (owedAmount amount s)

/-- Process one expense: fold its shares into the matrix. -/
def processExpense (m : DebtMap) (e : Expense) : DebtMap :=
  e.sharedAmongst.foldl (processShare e.creator e.amount) m

/-- JS `calculateRawDebts`: fold all expenses into an initially empty map. -/
def calculateRawDebts (expenses : List Expense) : DebtMap :=
  expenses.foldl processExpense []

/-- JS `if (!balances[k]) balances[k] = 0`: make sure a key is present. -/
def ensureKey (b : List (String × ℚ)) (k : String) : List (String × ℚ) :=
  match findVal b k with
  | some _ => b
  | none => b ++ [(k, 0)]

/-- JS `balances[k] += d` on a key already ensured present. -/
def addTo (b : List (String × ℚ)) (k : String) (d : ℚ) : List (String × ℚ) :=
  setVal b k ((findVal b k).getD 0 + d)

/-- Process one matrix cell while deriving net balances: ensure the creditor
key, subtract the amount from the debtor, add it to the creditor. -/
def processEntry (debtor : String) (b : List (String × ℚ))
    (cell : String × ℚ) : List (String × ℚ) :=
  addTo (addTo (ensureKey b cell.1) debtor (-cell.2)) cell.1 cell.2

/-- Process one matrix row: ensure the debtor key, then fold its cells. -/
def processRow (b : List (String × ℚ)) (row : String × InnerMap) :
    List (String × ℚ) :=
  row.2.foldl (processEntry row.1) (ensureKey b row.1)

/-- Net balances derived from a raw debt matrix (first half of
`simplifyDebts`). -/
def computeBalances (m : DebtMap) : List (String × ℚ) :=
  m.foldl processRow []

/-- A debtors/creditors work-list entry `{ user, amount }`. -/
structure Entry where
  user : String
  amount : ℚ
deriving DecidableEq

/-- Partition balances into debtors (balance < −0.01, stored as its
magnitude) and creditors (balance > 0.01), preserving balance order. -/
def partitionBal (b : List (String × ℚ)) : List Entry × List Entry :=
  b.foldl (fun dc kv =>
    if kv.2 < -(1/100) then (dc.1 ++ [⟨kv.1, -kv.2⟩], dc.2)
    else if kv.2 > 1/100 then (dc.1, dc.2 ++ [⟨kv.1, kv.2⟩])
    else dc) ([], [])

/-- Stable insertion into a descending-sorted list: ties keep the earlier
original element first, as JS stable `sort((a,b) => b.amount - a.amount)`. -/
def insertEntry (x : Entry) : List Entry → List Entry
  | [] => [x]
  | y :: ys => if y.amount ≤ x.amount then x :: y :: ys else y :: insertEntry x ys

/-- Stable sort by amount descending. -/
def sortDesc (l : List Entry) : List Entry := l.foldr insertEntry []

/-- A settlement transaction `{ from, to, amount }` (`from` and `to` are
Lean keywords, hence the field names `from_` and `to_`). -/
structure Txn where
  from_ : String
  to_ : String
  amount : ℚ
deriving DecidableEq

/-- JS `Math.round(q * 100) / 100`: round half-up to 2 decimal places. -/
def round2 (q : ℚ) : ℚ := (⌊q * 100 + 1/2⌋ : ℚ) / 100

/-- One iteration of the matching loop on nonempty lists with fronts `d`,
`c`: emit `min` of the two remaining amounts (rounded in the emitted
transaction, exact in the updates) and evict any front that fell
below 0.01. Returns the transaction and the two updated lists. -/
def settleIter (d c : Entry) (ds cs : List Entry) :
    Txn × List Entry × List Entry :=
  (⟨d.user, c.user, round2 (min d.amount c.amount)⟩,
   (if d.amount - min d.amount c.amount < 1/100 then ds
    else ⟨d.user, d.amount - min d.amount c.amount⟩ :: ds),
   (if c.amount - min d.amount c.amount < 1/100 then cs
    else ⟨c.user, c.amount - min d.amount c.amount⟩ :: cs))

/-- The matching loop of `simplifyDebts`: runs while both lists are
nonempty. -/
def settleLoop : List Entry → List Entry → List Txn
  | [], _ => []
  | _ :: _, [] => []
  | d :: ds, c :: cs =>
    (settleIter d c ds cs).1 ::
      settleLoop (settleIter d c ds cs).2.1 (settleIter d c ds cs).2.2
termination_by l₁ l₂ => l₁.length + l₂.length
decreasing_by
  unfold settleIter
  rcases le_total d.amount c.amount with h | h
  · rw [min_eq_left h]
    have h0 : d.amount - d.amount < 1/100 := by norm_num
    rw [if_pos h0]
    by_cases h1 : c.amount - d.amount < 1/100
    · rw [if_pos h1]; simp only [List.length_cons]; omega
    · rw [if_neg h1]; simp only [List.length_cons]; omega
  · rw [min_eq_right h]
    have h0 : c.amount - c.amount < 1/100 := by norm_num
    rw [if_pos h0]
    by_cases h1 : d.amount - c.amount < 1/100
    · rw [if_pos h1]; simp only [List.length_cons]; omega
    · rw [if_neg h1]; simp only [List.length_cons]; omega

/-- JS `simplifyDebts`: derive balances, partition, sort both lists
descending, then run the greedy matching loop. -/
def simplifyDebts (rawDebts : DebtMap) : List Txn :=
  let balances := computeBalances rawDebts
  let dc := partitionBal balances
  settleLoop (sortDesc dc.1) (sortDesc dc.2)

/-- A persisted settlement transaction inside a Debt record:
`{ from, to, amount, settled, settledAt }` (schema defaults:
`settled = false`, `settledAt` absent). -/
structure TxnRec where
  from_ : String
  to_ : String
  amount : ℚ
  settled : Bool
  settledAt : Option Nat
deriving DecidableEq, Inhabited

/-- A persisted settlement record ("Debt" document): family, transaction
list, finalization flag and timestamps. -/
structure DebtRecord where
  family : String
  debts : List TxnRec
  isFinalized : Bool
  finalizedAt : Option Nat
  updatedAt : Nat
deriving DecidableEq

/-- Wrap a freshly simplified transaction with the schema defaults. -/
def mkTxnRec (t : Txn) : TxnRec :=
  ⟨t.from_, t.to_, t.amount, false, none⟩

/-- The creation path of `POST api/debts/calculate/:familyId` after the
authorization and finalized-period checks: an empty expense list for the
period is rejected, otherwise a record holding the simplified
transactions is persisted. -/
def createDebtRecord (familyId : String) (expenses : List Expense)
    (now : Nat) : Except String DebtRecord :=
  if expenses.length = 0 then
    .error "No expenses found for the given period"
  else
    .ok ⟨familyId, (simplifyDebts (calculateRawDebts expenses)).map mkTxnRec,
         false, none, now⟩

/-- The `POST api/debts/settle/:debtId` handler after the authorization
checks: reject a finalized record, an out-of-bounds index, or an
already-settled transaction; otherwise mark the indexed transaction
settled, stamp `settledAt` and refresh `updatedAt`. -/
def settleDebt (debt : DebtRecord) (debtIndex : Int) (now : Nat) :
    Except String DebtRecord :=
  if debt.isFinalized then
    .error "This debt record is already finalized"
  else if debtIndex < 0 ∨ (debt.debts.length : Int) ≤ debtIndex then
    .error "Invalid debt index"
  else if (debt.debts.getD debtIndex.toNat default).settled then
    .error "This debt is already settled"
  else
    .ok { debt with
          debts := debt.debts.set debtIndex.toNat
            { debt.debts.getD debtIndex.toNat default with
              settled := true, settledAt := some now },
          updatedAt := now }

/-- The `POST api/debts/finalize/:debtId` handler after the authorization
checks: reject a finalized record or one with an unsettled transaction;
otherwise stamp `isFinalized`, `finalizedAt` and `updatedAt`. -/
def finalizeDebt (debt : DebtRecord) (now : Nat) : Except String DebtRecord :=
  if debt.isFinalized then
    .error "This debt record is already finalized"
  else if !(debt.debts.all (fun d => d.settled)) then
    .error "All debts must be settled before finalizing"
  else
    .ok { debt with isFinalized := true, finalizedAt := some now,
                    updatedAt := now }

/-- The creation-time share validation invariants of `POST api/expenses`
as the claim states them: equal shares pre-normalized to
`1/participantCount`, percentage shares in 0–100 summing to 100 (± 0.01),
fixed shares summing to the expense amount (± 0.01); one share type per
expense. -/
def validExpense (e : Expense) : Prop :=
  (∀ s ∈ e.sharedAmongst,
     s.shareType = "equal" ∧ s.shareValue = 1 / (e.sharedAmongst.length : ℚ))
  ∨ ((∀ s ∈ e.sharedAmongst,
        s.shareType = "percentage" ∧ 0 ≤ s.shareValue ∧ s.shareValue ≤ 100)
     ∧ |((e.sharedAmongst.map Share.shareValue).sum) - 100| ≤ 1/100)
  ∨ ((∀ s ∈ e.sharedAmongst, s.shareType = "fixed")
     ∧ |((e.sharedAmongst.map Share.shareValue).sum) - e.amount| ≤ 1/100)

/-- The three-user example: A pays 90 split equally among A, B, C. -/
def exampleExpense1 : Expense :=
  ⟨"A", 90, [⟨"A", "equal", 1/3⟩, ⟨"B", "equal", 1/3⟩, ⟨"C", "equal", 1/3⟩]⟩

/-- The three-user example: B pays 30 split equally between B and C. -/
def exampleExpense2 : Expense :=
  ⟨"B", 30, [⟨"B", "equal", 1/2⟩, ⟨"C", "equal", 1/2⟩]⟩

/-- The two expenses of the worked three-user example scenario. -/
def exampleExpenses : List Expense := [exampleExpense1, exampleExpense2]

/-- The raw debt matrix the example is expected to produce:
B→A 30, C→A 30, C→B 15. -/
def exampleMatrix : DebtMap :=
  [("B", [("A", 30)]), ("C", [("A", 30), ("B", 15)])]

/-- Extensional reading of a raw debt matrix: the accumulated amount of
`matrix[d][c]`, `none` when the entry is absent. -/
def lookup2 (m : DebtMap) (d c : String) : Option ℚ :=
  findVal ((findVal m d).getD []) c

/-- Whether one share of an expense with the given creator touches the
matrix entry `(d, c)`. -/
def contributes (creator d c : String) (s : Share) : Bool :=
  decide (s.user = d) && decide (creator = c) && decide (s.user ≠ creator)

/-- The amount one share adds to the matrix entry `(d, c)`. -/
def shareContrib (creator : String) (amount : ℚ) (d c : String)
    (s : Share) : ℚ :=
  if contributes creator d c s then owedAmount amount s else 0

/-- Permutation of one expense's shares, keeping creator and amount. -/
def ExpensePerm (e₁ e₂ : Expense) : Prop :=
  e₁.creator = e₂.creator ∧ e₁.amount = e₂.amount ∧
    e₁.sharedAmongst.Perm e₂.sharedAmongst

/-- Debtor entry extracted from one balance pair, if any. -/
def debtorOf (kv : String × ℚ) : Option Entry :=
  if kv.2 < -(1/100) then some ⟨kv.1, -kv.2⟩ else none

/-- Creditor entry extracted from one balance pair, if any. -/
def creditorOf (kv : String × ℚ) : Option Entry :=
  if kv.2 > 1/100 then some ⟨kv.1, kv.2⟩ else none

/-- Settlement record used as a concrete witness input: one settled
transaction, not finalized. -/
def recOne : DebtRecord := ⟨"fam", [⟨"B", "A", 15, true, some 1⟩], false, none, 1⟩

/-- Settlement record used as a concrete witness input: one unsettled
transaction, not finalized. -/
def recTwo : DebtRecord := ⟨"fam", [⟨"B", "A", 15, false, none⟩], false, none, 0⟩

/-- Expense whose only share belongs to its creator: it produces no debts. -/
def selfOnlyExpense : Expense := ⟨"A", 90, [⟨"A", "equal", 1⟩]⟩

/-- A non-empty expense list whose simplified transaction list is empty. -/
def selfOnlyExpenses : List Expense := [selfOnlyExpense]

/-- Fixed-share expense whose shares sum to the total (passing creation
validation) but contain a negative share value. -/
def badFixedExpense : Expense :=
  ⟨"A", 100, [⟨"A", "fixed", 150⟩, ⟨"B", "fixed", -50⟩]⟩

/-- The first example expense with its first two shares swapped. -/
def exampleExpense1swapped : Expense :=
  ⟨"A", 90, [⟨"B", "equal", 1/3⟩, ⟨"A", "equal", 1/3⟩, ⟨"C", "equal", 1/3⟩]⟩

/-- The example expense list reordered: expenses swapped and the shares of
the first expense permuted. -/
def exampleExpensesPerm : List Expense :=
  [exampleExpense2, exampleExpense1swapped]

/-! ### Theorems -/

/-- Each iteration strictly shrinks the total work-list length: the side
achieving the minimum has its remainder reduced to exactly 0 < 0.01. -/
theorem settleIter_sum_lt (d c : Entry) (ds cs : List Entry) :
    (settleIter d c ds cs).2.1.length + (settleIter d c ds cs).2.2.length
      < (d :: ds).length + (c :: cs).length := by
  unfold settleIter
  rcases le_total d.amount c.amount with h | h
  · rw [min_eq_left h]
    have h0 : d.amount - d.amount < 1/100 := by norm_num
    rw [if_pos h0]
    by_cases h1 : c.amount - d.amount < 1/100
    · rw [if_pos h1]; simp only [List.length_cons]; omega
    · rw [if_neg h1]; simp only [List.length_cons]; omega
  · rw [min_eq_right h]
    have h0 : c.amount - c.amount < 1/100 := by norm_num
    rw [if_pos h0]
    by_cases h1 : d.amount - c.amount < 1/100
    · rw [if_pos h1]; simp only [List.length_cons]; omega
    · rw [if_neg h1]; simp only [List.length_cons]; omega

theorem findVal_setVal_self {α : Type} (m : List (String × α)) (k : String)
    (v : α) : findVal (setVal m k v) k = some v := by
  induction m with
  | nil => simp [setVal, findVal]
  | cons hd tl ih =>
    by_cases h : hd.1 = k
    · simp [setVal, findVal, h]
    · simp only [setVal, findVal]
      rw [if_neg h, findVal, if_neg h]
      exact ih

theorem findVal_setVal_ne {α : Type} (m : List (String × α)) (k k' : String)
    (v : α) (h : k ≠ k') : findVal (setVal m k v) k' = findVal m k' := by
  induction m with
  | nil => simp [setVal, findVal, h]
  | cons hd tl ih =>
    by_cases h1 : hd.1 = k
    · simp only [setVal]
      rw [if_pos h1, findVal, findVal, if_neg h, if_neg (h1 ▸ h)]
    · simp only [setVal]
      rw [if_neg h1, findVal, findVal]
      by_cases h2 : hd.1 = k'
      · rw [if_pos h2, if_pos h2]
      · rw [if_neg h2, if_neg h2]
        exact ih

theorem mem_setVal {α : Type} (m : List (String × α)) (k : String) (v : α)
    (x : String × α) (hx : x ∈ setVal m k v) : x = (k, v) ∨ x ∈ m := by
  induction m with
  | nil => simp [setVal] at hx; simp [hx]
  | cons hd tl ih =>
    by_cases h : hd.1 = k
    · rw [setVal, if_pos h] at hx
      rcases List.mem_cons.mp hx with h1 | h1
      · exact Or.inl h1
      · exact Or.inr (List.mem_cons_of_mem _ h1)
    · rw [setVal, if_neg h] at hx
      rcases List.mem_cons.mp hx with h1 | h1
      · exact Or.inr (h1 ▸ List.mem_cons_self _ _)
      · rcases ih h1 with h2 | h2
        · exact Or.inl h2
        · exact Or.inr (List.mem_cons_of_mem _ h2)

theorem findVal_mem {α : Type} (m : List (String × α)) (k : String) (v : α)
    (h : findVal m k = some v) : (k, v) ∈ m := by
  induction m with
  | nil => simp [findVal] at h
  | cons hd tl ih =>
    obtain ⟨a, b⟩ := hd
    rw [findVal] at h
    by_cases h1 : a = k
    · rw [if_pos h1] at h
      injection h with h2
      subst h1
      subst h2
      exact List.mem_cons_self _ _
    · rw [if_neg h1] at h
      exact List.mem_cons_of_mem _ (ih h)

theorem sum_addTo (b : List (String × ℚ)) (k : String) (d : ℚ) :
    ((addTo b k d).map Prod.snd).sum = (b.map Prod.snd).sum + d := by
  induction b with
  | nil => simp [addTo, setVal, findVal]
  | cons hd tl ih =>
    by_cases h : hd.1 = k
    · simp only [addTo, setVal, findVal, if_pos h]
      simp only [List.map_cons, List.sum_cons, Option.getD_some]
      ring
    · simp only [addTo, setVal, findVal, if_neg h] at ih ⊢
      simp only [List.map_cons, List.sum_cons, ih]
      ring

theorem sum_ensureKey (b : List (String × ℚ)) (k : String) :
    ((ensureKey b k).map Prod.snd).sum = (b.map Prod.snd).sum := by
  unfold ensureKey
  cases h : findVal b k with
  | some v => rfl
  | none => simp

theorem sum_processEntry (debtor : String) (b : List (String × ℚ))
    (cell : String × ℚ) :
    ((processEntry debtor b cell).map Prod.snd).sum = (b.map Prod.snd).sum := by
  unfold processEntry
  rw [sum_addTo, sum_addTo, sum_ensureKey]
  ring

theorem sum_foldl_processEntry (debtor : String) (cells : InnerMap)
    (b : List (String × ℚ)) :
    ((cells.foldl (processEntry debtor) b).map Prod.snd).sum
      = (b.map Prod.snd).sum := by
  induction cells generalizing b with
  | nil => rfl
  | cons hd tl ih => rw [List.foldl_cons, ih, sum_processEntry]

theorem sum_processRow (b : List (String × ℚ)) (row : String × InnerMap) :
    ((processRow b row).map Prod.snd).sum = (b.map Prod.snd).sum := by
  unfold processRow
  rw [sum_foldl_processEntry, sum_ensureKey]

theorem sum_foldl_processRow (rows : DebtMap) (b : List (String × ℚ)) :
    ((rows.foldl processRow b).map Prod.snd).sum = (b.map Prod.snd).sum := by
  induction rows generalizing b with
  | nil => rfl
  | cons hd tl ih => rw [List.foldl_cons, ih, sum_processRow]

theorem settleLoop_length_le (ds cs : List Entry) :
    (settleLoop ds cs).length ≤ ds.length + cs.length - 1 := by
  induction ds, cs using settleLoop.induct with
  | case1 cs => simp [settleLoop]
  | case2 => simp [settleLoop]
  | case3 d ds c cs ih =>
    have hlt := settleIter_sum_lt d c ds cs
    rw [settleLoop]
    simp only [List.length_cons] at hlt ih ⊢
    omega

theorem lookup2_addDebt (m : DebtMap) (u cr : String) (amt : ℚ)
    (d c : String) :
    lookup2 (addDebt m u cr amt) d c =
      if d = u ∧ c = cr then some ((lookup2 m d c).getD 0 + amt)
      else lookup2 m d c := by
  unfold addDebt lookup2
  by_cases hd : d = u
  · subst hd
    rw [findVal_setVal_self, Option.getD_some]
    by_cases hc : c = cr
    · subst hc
      rw [findVal_setVal_self, if_pos ⟨rfl, rfl⟩]
    · rw [findVal_setVal_ne _ _ _ _ (fun h => hc h.symm),
          if_neg (fun h => hc h.2)]
  · rw [findVal_setVal_ne _ _ _ _ (fun h => hd h.symm),
        if_neg (fun h => hd h.1)]

theorem lookup2_processShare (creator : String) (amount : ℚ) (m : DebtMap)
    (s : Share) (d c : String) :
    lookup2 (processShare creator amount m s) d c =
      if contributes creator d c s
      then some ((lookup2 m d c).getD 0 + owedAmount amount s)
      else lookup2 m d c := by
  unfold processShare
  by_cases hsc : s.user = creator
  · have hb : contributes creator d c s = false := by simp [contributes, hsc]
    rw [if_pos hsc, hb]
    simp
  · rw [if_neg hsc, lookup2_addDebt]
    by_cases hd : s.user = d
    · by_cases hc : creator = c
      · have hsc' : ¬d = c := fun h => hsc (by rw [hd, hc, h])
        have hb : contributes creator d c s = true := by
          simp [contributes, hd, hc, hsc']
        rw [hb, if_pos ⟨hd.symm, hc.symm⟩]
        simp
      · have hb : contributes creator d c s = false := by
          simp [contributes, hc]
        rw [hb, if_neg (fun h => hc h.2.symm)]
        simp
    · have hb : contributes creator d c s = false := by
        simp [contributes, hd]
      rw [hb, if_neg (fun h => hd h.1.symm)]
      simp

theorem isSome_foldl_shares (creator : String) (amount : ℚ)
    (shares : List Share) (m : DebtMap) (d c : String) :
    (lookup2 (shares.foldl (processShare creator amount) m) d c).isSome
      = (shares.any (contributes creator d c) || (lookup2 m d c).isSome) := by
  induction shares generalizing m with
  | nil => simp
  | cons s rest ih =>
    rw [List.foldl_cons, ih, lookup2_processShare]
    by_cases hb : contributes creator d c s = true
    · simp [hb]
    · have hb' : contributes creator d c s = false := Bool.eq_false_iff.mpr hb
      simp [hb']

theorem getD_foldl_shares (creator : String) (amount : ℚ)
    (shares : List Share) (m : DebtMap) (d c : String) :
    (lookup2 (shares.foldl (processShare creator amount) m) d c).getD 0
      = (lookup2 m d c).getD 0
          + (shares.map (shareContrib creator amount d c)).sum := by
  induction shares generalizing m with
  | nil => simp
  | cons s rest ih =>
    rw [List.foldl_cons, ih, lookup2_processShare]
    by_cases hb : contributes creator d c s = true
    · simp only [hb, if_true, Option.getD_some, List.map_cons, List.sum_cons,
        shareContrib]
      ring
    · have hb' : contributes creator d c s = false := Bool.eq_false_iff.mpr hb
      simp only [hb', Bool.false_eq_true, if_false, List.map_cons,
        List.sum_cons, shareContrib]
      ring

theorem isSome_foldl_expenses (es : List Expense) (m : DebtMap)
    (d c : String) :
    (lookup2 (es.foldl processExpense m) d c).isSome
      = (es.any (fun e => e.sharedAmongst.any (contributes e.creator d c))
          || (lookup2 m d c).isSome) := by
  induction es generalizing m with
  | nil => simp
  | cons e rest ih =>
    rw [List.foldl_cons, ih]
    have he : (lookup2 (processExpense m e) d c).isSome
        = (e.sharedAmongst.any (contributes e.creator d c)
            || (lookup2 m d c).isSome) :=
      isSome_foldl_shares e.creator e.amount e.sharedAmongst m d c
    rw [he, List.any_cons]
    cases e.sharedAmongst.any (contributes e.creator d c) <;>
      cases rest.any (fun e => e.sharedAmongst.any (contributes e.creator d c)) <;>
      simp

theorem getD_foldl_expenses (es : List Expense) (m : DebtMap)
    (d c : String) :
    (lookup2 (es.foldl processExpense m) d c).getD 0
      = (lookup2 m d c).getD 0
          + (es.map (fun e =>
              (e.sharedAmongst.map
                (shareContrib e.creator e.amount d c)).sum)).sum := by
  induction es generalizing m with
  | nil => simp
  | cons e rest ih =>
    rw [List.foldl_cons, ih]
    have he : (lookup2 (processExpense m e) d c).getD 0
        = (lookup2 m d c).getD 0
            + (e.sharedAmongst.map
                (shareContrib e.creator e.amount d c)).sum :=
      getD_foldl_shares e.creator e.amount e.sharedAmongst m d c
    rw [he, List.map_cons, List.sum_cons]
    ring

theorem isSome_calculateRawDebts (es : List Expense) (d c : String) :
    (lookup2 (calculateRawDebts es) d c).isSome
      = es.any (fun e => e.sharedAmongst.any (contributes e.creator d c)) := by
  have h := isSome_foldl_expenses es [] d c
  simpa [calculateRawDebts, lookup2, findVal] using h

theorem getD_calculateRawDebts (es : List Expense) (d c : String) :
    (lookup2 (calculateRawDebts es) d c).getD 0
      = (es.map (fun e =>
          (e.sharedAmongst.map
            (shareContrib e.creator e.amount d c)).sum)).sum := by
  have h := getD_foldl_expenses es [] d c
  simpa [calculateRawDebts, lookup2, findVal] using h

theorem option_eq_of_isSome_getD (o₁ o₂ : Option ℚ)
    (h1 : o₁.isSome = o₂.isSome) (h2 : o₁.getD 0 = o₂.getD 0) : o₁ = o₂ := by
  cases o₁ <;> cases o₂ <;> simp_all

theorem forall₂_any_eq {α : Type} {r : α → α → Prop} {g : α → Bool}
    (hg : ∀ a b, r a b → g a = g b) {l₁ l₂ : List α}
    (h : List.Forall₂ r l₁ l₂) : l₁.any g = l₂.any g := by
  induction h with
  | nil => rfl
  | cons hab _ ih => simp [List.any_cons, hg _ _ hab, ih]

theorem forall₂_map_sum_eq {α : Type} {r : α → α → Prop} {f : α → ℚ}
    (hf : ∀ a b, r a b → f a = f b) {l₁ l₂ : List α}
    (h : List.Forall₂ r l₁ l₂) : (l₁.map f).sum = (l₂.map f).sum := by
  induction h with
  | nil => rfl
  | cons hab _ ih => simp [hf _ _ hab, ih]

theorem perm_any_eq {α : Type} {g : α → Bool} {l₁ l₂ : List α}
    (h : l₁.Perm l₂) : l₁.any g = l₂.any g := by
  rw [Bool.eq_iff_iff, List.any_eq_true, List.any_eq_true]
  constructor
  · rintro ⟨x, hx, hgx⟩
    exact ⟨x, h.mem_iff.mp hx, hgx⟩
  · rintro ⟨x, hx, hgx⟩
    exact ⟨x, h.mem_iff.mpr hx, hgx⟩

theorem expensePerm_any_eq (d c : String) (a b : Expense)
    (hab : ExpensePerm a b) :
    a.sharedAmongst.any (contributes a.creator d c)
      = b.sharedAmongst.any (contributes b.creator d c) := by
  obtain ⟨hcr, _, hperm⟩ := hab
  rw [hcr]
  exact perm_any_eq hperm

theorem expensePerm_sum_eq (d c : String) (a b : Expense)
    (hab : ExpensePerm a b) :
    (a.sharedAmongst.map (shareContrib a.creator a.amount d c)).sum
      = (b.sharedAmongst.map (shareContrib b.creator b.amount d c)).sum := by
  obtain ⟨hcr, ham, hperm⟩ := hab
  rw [hcr, ham]
  exact (hperm.map _).sum_eq

theorem owedAmount_nonneg (amount : ℚ) (s : Share) (ha : 0 ≤ amount)
    (hv : 0 ≤ s.shareValue) : 0 ≤ owedAmount amount s := by
  unfold owedAmount
  split_ifs
  · exact mul_nonneg ha hv
  · exact mul_nonneg ha (by positivity)
  · exact hv
  · exact le_refl 0

theorem addDebt_nonneg (m : DebtMap) (u cr : String) (amt : ℚ)
    (hm : ∀ row ∈ m, ∀ cell ∈ row.2, 0 ≤ cell.2) (hamt : 0 ≤ amt) :
    ∀ row ∈ addDebt m u cr amt, ∀ cell ∈ row.2, 0 ≤ cell.2 := by
  intro row hrow cell hcell
  unfold addDebt at hrow
  have hinner : ∀ cell ∈ (findVal m u).getD [], 0 ≤ cell.2 := by
    cases hf : findVal m u with
    | none => simp
    | some inner =>
      intro x hx
      exact hm (u, inner) (findVal_mem m u inner hf) x hx
  rcases mem_setVal _ _ _ _ hrow with h | h
  · have hcell' : cell ∈ setVal ((findVal m u).getD []) cr
        ((findVal ((findVal m u).getD []) cr).getD 0 + amt) := by
      rw [h] at hcell
      exact hcell
    rcases mem_setVal _ _ _ _ hcell' with h2 | h2
    · rw [h2]
      have hold : 0 ≤ (findVal ((findVal m u).getD []) cr).getD 0 := by
        cases hf2 : findVal ((findVal m u).getD []) cr with
        | none => simp
        | some v =>
          simpa using hinner (cr, v) (findVal_mem _ cr v hf2)
      exact add_nonneg hold hamt
    · exact hinner cell h2
  · exact hm row h cell hcell

theorem processShare_nonneg (creator : String) (amount : ℚ) (m : DebtMap)
    (s : Share) (hm : ∀ row ∈ m, ∀ cell ∈ row.2, 0 ≤ cell.2)
    (ha : 0 ≤ amount) (hv : 0 ≤ s.shareValue) :
    ∀ row ∈ processShare creator amount m s, ∀ cell ∈ row.2, 0 ≤ cell.2 := by
  unfold processShare
  split_ifs
  · exact hm
  · exact addDebt_nonneg m s.user creator (owedAmount amount s) hm
      (owedAmount_nonneg amount s ha hv)

theorem foldl_shares_nonneg (creator : String) (amount : ℚ)
    (shares : List Share) (m : DebtMap)
    (hm : ∀ row ∈ m, ∀ cell ∈ row.2, 0 ≤ cell.2) (ha : 0 ≤ amount)
    (hv : ∀ s ∈ shares, 0 ≤ s.shareValue) :
    ∀ row ∈ shares.foldl (processShare creator amount) m,
      ∀ cell ∈ row.2, 0 ≤ cell.2 := by
  induction shares generalizing m with
  | nil => exact hm
  | cons s rest ih =>
    rw [List.foldl_cons]
    exact ih (processShare creator amount m s)
      (processShare_nonneg creator amount m s hm ha
        (hv s (List.mem_cons_self s rest)))
      (fun x hx => hv x (List.mem_cons_of_mem s hx))

theorem calculateRawDebts_nonneg (es : List Expense)
    (ha : ∀ e ∈ es, 0 ≤ e.amount)
    (hv : ∀ e ∈ es, ∀ s ∈ e.sharedAmongst, 0 ≤ s.shareValue) :
    ∀ row ∈ calculateRawDebts es, ∀ cell ∈ row.2, 0 ≤ cell.2 := by
  unfold calculateRawDebts
  have hgen : ∀ (l : List Expense) (m : DebtMap),
      (∀ row ∈ m, ∀ cell ∈ row.2, 0 ≤ cell.2) →
      (∀ e ∈ l, 0 ≤ e.amount) →
      (∀ e ∈ l, ∀ s ∈ e.sharedAmongst, 0 ≤ s.shareValue) →
      ∀ row ∈ l.foldl processExpense m, ∀ cell ∈ row.2, 0 ≤ cell.2 := by
    intro l
    induction l with
    | nil => intro m hm _ _; exact hm
    | cons e rest ih =>
      intro m hm hal hvl
      rw [List.foldl_cons]
      exact ih (processExpense m e)
        (foldl_shares_nonneg e.creator e.amount e.sharedAmongst m hm
          (hal e (List.mem_cons_self e rest))
          (hvl e (List.mem_cons_self e rest)))
        (fun x hx => hal x (List.mem_cons_of_mem e hx))
        (fun x hx => hvl x (List.mem_cons_of_mem e hx))
  exact hgen es [] (by simp) ha hv

theorem partitionBal_go (b : List (String × ℚ)) (acc : List Entry × List Entry) :
    b.foldl (fun dc kv =>
      if kv.2 < -(1/100) then (dc.1 ++ [⟨kv.1, -kv.2⟩], dc.2)
      else if kv.2 > 1/100 then (dc.1, dc.2 ++ [⟨kv.1, kv.2⟩])
      else dc) acc
    = (acc.1 ++ b.filterMap debtorOf, acc.2 ++ b.filterMap creditorOf) := by
  induction b generalizing acc with
  | nil => simp
  | cons kv tl ih =>
    rw [List.foldl_cons]
    by_cases h1 : kv.2 < -(1/100)
    · have h2 : ¬kv.2 > 1/100 := by
        intro h
        have := lt_trans h1 (by norm_num : -(1/100 : ℚ) < 1/100)
        linarith
      have hdo : debtorOf kv = some ⟨kv.1, -kv.2⟩ := by rw [debtorOf, if_pos h1]
      have hco : creditorOf kv = none := by rw [creditorOf, if_neg h2]
      rw [if_pos h1, ih, List.filterMap_cons, List.filterMap_cons, hdo, hco]
      simp
    · rw [if_neg h1]
      have hdo : debtorOf kv = none := by rw [debtorOf, if_neg h1]
      by_cases h2 : kv.2 > 1/100
      · have hco : creditorOf kv = some ⟨kv.1, kv.2⟩ := by
          rw [creditorOf, if_pos h2]
        rw [if_pos h2, ih, List.filterMap_cons, List.filterMap_cons, hdo, hco]
        simp
      · have hco : creditorOf kv = none := by rw [creditorOf, if_neg h2]
        rw [if_neg h2, ih, List.filterMap_cons, List.filterMap_cons, hdo, hco]

theorem partitionBal_eq (b : List (String × ℚ)) :
    partitionBal b = (b.filterMap debtorOf, b.filterMap creditorOf) := by
  unfold partitionBal
  rw [partitionBal_go]
  simp

theorem mem_debtors (b : List (String × ℚ)) (e : Entry)
    (he : e ∈ b.filterMap debtorOf) :
    (e.user, -e.amount) ∈ b ∧ 1/100 < e.amount := by
  rcases List.mem_filterMap.mp he with ⟨kv, hkv, hd⟩
  unfold debtorOf at hd
  by_cases h : kv.2 < -(1/100)
  · rw [if_pos h] at hd
    injection hd with hd
    constructor
    · rw [← hd]
      simpa using hkv
    · rw [← hd]
      simp only []
      linarith
  · rw [if_neg h] at hd
    exact absurd hd (by simp)

theorem mem_creditors (b : List (String × ℚ)) (e : Entry)
    (he : e ∈ b.filterMap creditorOf) :
    (e.user, e.amount) ∈ b ∧ 1/100 < e.amount := by
  rcases List.mem_filterMap.mp he with ⟨kv, hkv, hd⟩
  unfold creditorOf at hd
  by_cases h : kv.2 > 1/100
  · rw [if_pos h] at hd
    injection hd with hd
    constructor
    · rw [← hd]
      simpa using hkv
    · rw [← hd]
      exact h
  · rw [if_neg h] at hd
    exact absurd hd (by simp)

theorem findVal_eq_none_not_mem {α : Type} (b : List (String × α)) (k : String)
    (h : findVal b k = none) : k ∉ b.map Prod.fst := by
  induction b with
  | nil => simp
  | cons hd tl ih =>
    rw [findVal] at h
    by_cases h1 : hd.1 = k
    · obtain ⟨a, v⟩ := hd
      simp only at h1
      rw [if_pos h1] at h
      exact absurd h (by simp)
    · rw [if_neg h1] at h
      simp only [List.map_cons, List.mem_cons]
      rintro (h2 | h2)
      · exact h1 h2.symm
      · exact ih h h2

theorem mem_keys_setVal {α : Type} (m : List (String × α)) (k : String)
    (v : α) (x : String) (hx : x ∈ (setVal m k v).map Prod.fst) :
    x ∈ m.map Prod.fst ∨ x = k := by
  rcases List.mem_map.mp hx with ⟨p, hp, hpx⟩
  rcases mem_setVal m k v p hp with h | h
  · right
    rw [← hpx, h]
  · left
    exact List.mem_map.mpr ⟨p, h, hpx⟩

theorem nodup_keys_setVal {α : Type} (m : List (String × α)) (k : String)
    (v : α) (h : (m.map Prod.fst).Nodup) : ((setVal m k v).map Prod.fst).Nodup := by
  induction m with
  | nil => simp [setVal]
  | cons hd tl ih =>
    simp only [List.map_cons, List.nodup_cons] at h
    by_cases h1 : hd.1 = k
    · rw [setVal, if_pos h1]
      simp only [List.map_cons, List.nodup_cons]
      exact ⟨h1 ▸ h.1, h.2⟩
    · rw [setVal, if_neg h1]
      simp only [List.map_cons, List.nodup_cons]
      refine ⟨?_, ih h.2⟩
      intro hmem
      rcases mem_keys_setVal tl k v hd.1 hmem with h2 | h2
      · exact h.1 h2
      · exact h1 h2

theorem nodup_keys_addTo (b : List (String × ℚ)) (k : String) (d : ℚ)
    (h : (b.map Prod.fst).Nodup) : ((addTo b k d).map Prod.fst).Nodup :=
  nodup_keys_setVal b k _ h

theorem nodup_keys_ensureKey (b : List (String × ℚ)) (k : String)
    (h : (b.map Prod.fst).Nodup) : ((ensureKey b k).map Prod.fst).Nodup := by
  unfold ensureKey
  cases hf : findVal b k with
  | some v => exact h
  | none =>
    have hk := findVal_eq_none_not_mem b k hf
    simp [List.nodup_append, h, hk]

theorem nodup_keys_processEntry (debtor : String) (b : List (String × ℚ))
    (cell : String × ℚ) (h : (b.map Prod.fst).Nodup) :
    ((processEntry debtor b cell).map Prod.fst).Nodup :=
  nodup_keys_addTo _ _ _ (nodup_keys_addTo _ _ _ (nodup_keys_ensureKey b cell.1 h))

theorem nodup_keys_processRow (b : List (String × ℚ)) (row : String × InnerMap)
    (h : (b.map Prod.fst).Nodup) :
    ((processRow b row).map Prod.fst).Nodup := by
  unfold processRow
  have hgen : ∀ (cells : InnerMap) (b0 : List (String × ℚ)),
      (b0.map Prod.fst).Nodup →
      ((cells.foldl (processEntry row.1) b0).map Prod.fst).Nodup := by
    intro cells
    induction cells with
    | nil => intro b0 hb0; exact hb0
    | cons hd tl ih =>
      intro b0 hb0
      rw [List.foldl_cons]
      exact ih _ (nodup_keys_processEntry row.1 b0 hd hb0)
  exact hgen row.2 _ (nodup_keys_ensureKey b row.1 h)

theorem nodup_keys_computeBalances (m : DebtMap) :
    ((computeBalances m).map Prod.fst).Nodup := by
  unfold computeBalances
  have hgen : ∀ (rows : DebtMap) (b : List (String × ℚ)),
      (b.map Prod.fst).Nodup →
      ((rows.foldl processRow b).map Prod.fst).Nodup := by
    intro rows
    induction rows with
    | nil => intro b hb; exact hb
    | cons hd tl ih =>
      intro b hb
      rw [List.foldl_cons]
      exact ih _ (nodup_keys_processRow b hd hb)
  exact hgen m [] (by simp)

theorem nodup_keys_unique {α : Type} (b : List (String × α))
    (h : (b.map Prod.fst).Nodup) (k : String) (v₁ v₂ : α)
    (h1 : (k, v₁) ∈ b) (h2 : (k, v₂) ∈ b) : v₁ = v₂ := by
  induction b with
  | nil => simp at h1
  | cons hd tl ih =>
    simp only [List.map_cons, List.nodup_cons] at h
    rcases List.mem_cons.mp h1 with ha | ha <;>
      rcases List.mem_cons.mp h2 with hb | hb
    · exact (Prod.ext_iff.mp (ha.trans hb.symm)).2
    · exfalso
      apply h.1
      rw [← ha]
      exact List.mem_map.mpr ⟨(k, v₂), hb, rfl⟩
    · exfalso
      apply h.1
      rw [← hb]
      exact List.mem_map.mpr ⟨(k, v₁), ha, rfl⟩
    · exact ih h.2 ha hb

theorem insertEntry_perm (x : Entry) (l : List Entry) :
    (insertEntry x l).Perm (x :: l) := by
  induction l with
  | nil => exact List.Perm.refl _
  | cons y ys ih =>
    rw [insertEntry]
    by_cases h : y.amount ≤ x.amount
    · rw [if_pos h]
    · rw [if_neg h]
      exact (ih.cons y).trans (List.Perm.swap x y ys)

theorem sortDesc_perm (l : List Entry) : (sortDesc l).Perm l := by
  induction l with
  | nil => exact List.Perm.refl _
  | cons x xs ih =>
    unfold sortDesc at ih ⊢
    rw [List.foldr_cons]
    exact (insertEntry_perm x _).trans (ih.cons x)

theorem sortDesc_length (l : List Entry) : (sortDesc l).length = l.length :=
  (sortDesc_perm l).length_eq

theorem mem_sortDesc (l : List Entry) (x : Entry) :
    x ∈ sortDesc l ↔ x ∈ l :=
  (sortDesc_perm l).mem_iff

theorem round2_ge (q : ℚ) (h : 1/100 ≤ q) : 1/100 ≤ round2 q := by
  unfold round2
  have h1 : (1 : ℤ) ≤ ⌊q * 100 + 1/2⌋ := by
    apply Int.le_floor.mpr
    push_cast
    linarith
  have h2 : (1 : ℚ) ≤ (⌊q * 100 + 1/2⌋ : ℚ) := by exact_mod_cast h1
  linarith

theorem settleLoop_mem (ds cs : List Entry) :
    (∀ e ∈ ds, 1/100 ≤ e.amount) → (∀ e ∈ cs, 1/100 ≤ e.amount) →
    ∀ t ∈ settleLoop ds cs,
      1/100 ≤ t.amount ∧ t.from_ ∈ ds.map Entry.user
        ∧ t.to_ ∈ cs.map Entry.user := by
  induction ds, cs using settleLoop.induct with
  | case1 cs =>
    intro _ _ t ht
    simp [settleLoop] at ht
  | case2 =>
    intro _ _ t ht
    simp [settleLoop] at ht
  | case3 d ds c cs ih =>
    intro hd hc t ht
    rw [settleLoop] at ht
    have hda : 1/100 ≤ d.amount := hd d (List.mem_cons_self d ds)
    have hca : 1/100 ≤ c.amount := hc c (List.mem_cons_self c cs)
    rcases List.mem_cons.mp ht with h | h
    · refine ⟨?_, ?_, ?_⟩
      · rw [h]
        exact round2_ge _ (le_min hda hca)
      · rw [h]
        simp [settleIter]
      · rw [h]
        simp [settleIter]
    · have hd' : ∀ e ∈ (settleIter d c ds cs).2.1, 1/100 ≤ e.amount := by
        unfold settleIter
        simp only []
        split_ifs with h1
        · exact fun e he => hd e (List.mem_cons_of_mem d he)
        · intro e he
          rcases List.mem_cons.mp he with h2 | h2
          · rw [h2]
            simp only []
            linarith [not_lt.mp h1]
          · exact hd e (List.mem_cons_of_mem d h2)
      have hc' : ∀ e ∈ (settleIter d c ds cs).2.2, 1/100 ≤ e.amount := by
        unfold settleIter
        simp only []
        split_ifs with h1
        · exact fun e he => hc e (List.mem_cons_of_mem c he)
        · intro e he
          rcases List.mem_cons.mp he with h2 | h2
          · rw [h2]
            simp only []
            linarith [not_lt.mp h1]
          · exact hc e (List.mem_cons_of_mem c h2)
      obtain ⟨hamt, hfrom, hto⟩ := ih hd' hc' t h
      refine ⟨hamt, ?_, ?_⟩
      · revert hfrom
        unfold settleIter
        simp only []
        split_ifs with h1
        · intro hfrom
          rcases List.mem_map.mp hfrom with ⟨e, he, heq⟩
          exact heq ▸ List.mem_map_of_mem Entry.user (List.mem_cons_of_mem d he)
        · intro hfrom
          rcases List.mem_map.mp hfrom with ⟨e, he, heq⟩
          rcases List.mem_cons.mp he with h2 | h2
          · rw [← heq, h2]
            simp
          · exact heq ▸ List.mem_map_of_mem Entry.user (List.mem_cons_of_mem d h2)
      · revert hto
        unfold settleIter
        simp only []
        split_ifs with h1
        · intro hto
          rcases List.mem_map.mp hto with ⟨e, he, heq⟩
          exact heq ▸ List.mem_map_of_mem Entry.user (List.mem_cons_of_mem c he)
        · intro hto
          rcases List.mem_map.mp hto with ⟨e, he, heq⟩
          rcases List.mem_cons.mp he with h2 | h2
          · rw [← heq, h2]
            simp
          · exact heq ▸ List.mem_map_of_mem Entry.user (List.mem_cons_of_mem c h2)

theorem getD_set_self {α : Type} [Inhabited α] (l : List α) (n : Nat) (a : α)
    (h : n < l.length) : (l.set n a).getD n default = a := by
  induction l generalizing n with
  | nil => simp at h
  | cons hd tl ih =>
    cases n with
    | zero => simp
    | succ n =>
      simp only [List.set, List.getD_cons_succ]
      exact ih n (Nat.lt_of_succ_lt_succ h)

/-- C5: finalize fails on an already finalized record; fails when some
transaction is unsettled; succeeds when the record is unfinalized with all
transactions settled, stamping `isFinalized` and `finalizedAt`; and after a
successful finalize, every subsequent settle or finalize call fails. -/
theorem finalize_gating (d : DebtRecord) (now : Nat) :
    (d.isFinalized = true →
      finalizeDebt d now = .error "This debt record is already finalized")
    ∧ ((∃ t ∈ d.debts, t.settled = false) →
        ∃ msg, finalizeDebt d now = .error msg)
    ∧ (d.isFinalized = false → (∀ t ∈ d.debts, t.settled = true) →
        finalizeDebt d now
          = .ok { d with isFinalized := true, finalizedAt := some now,
                         updatedAt := now })
    ∧ (∀ d2 : DebtRecord, finalizeDebt d now = .ok d2 →
        (∀ (i : Int) (n2 : Nat), ∃ msg, settleDebt d2 i n2 = .error msg)
        ∧ (∀ n2 : Nat, ∃ msg, finalizeDebt d2 n2 = .error msg)) := by
  refine ⟨?_, ?_, ?_, ?_⟩
  · intro h
    unfold finalizeDebt
    rw [if_pos h]
  · rintro ⟨t, ht, hts⟩
    unfold finalizeDebt
    by_cases hf : d.isFinalized
    · exact ⟨_, by rw [if_pos hf]⟩
    · have hnall : ¬(d.debts.all (fun x => x.settled) = true) := by
        rw [List.all_eq_true]
        push_neg
        exact ⟨t, ht, by simp [hts]⟩
      have hall : d.debts.all (fun x => x.settled) = false :=
        Bool.eq_false_iff.mpr hnall
      exact ⟨_, by rw [if_neg hf, if_pos (by rw [hall]; rfl)]⟩
  · intro hf hall
    have hall' : d.debts.all (fun x => x.settled) = true :=
      List.all_eq_true.mpr hall
    unfold finalizeDebt
    rw [if_neg (by simp [hf]), if_neg (by rw [hall']; simp)]
  · intro d2 h2
    unfold finalizeDebt at h2
    by_cases hf : d.isFinalized
    · rw [if_pos hf] at h2
      exact absurd h2 (by simp)
    · rw [if_neg hf] at h2
      by_cases hall : d.debts.all (fun x => x.settled) = true
      · rw [if_neg (by rw [hall]; simp)] at h2
        have hd2 : d2.isFinalized = true := by
          injection h2 with h3
          rw [← h3]
        constructor
        · intro i n2
          exact ⟨_, by unfold settleDebt; rw [if_pos hd2]⟩
        · intro n2
          exact ⟨_, by unfold finalizeDebt; rw [if_pos hd2]⟩
      · have hall' : d.debts.all (fun x => x.settled) = false :=
          Bool.eq_false_iff.mpr hall
        rw [if_pos (by rw [hall']; rfl)] at h2
        exact absurd h2 (by simp)

/-- Witness for C5 at a concrete record: finalize succeeds on a fully
settled record, and finalizing the result again fails. -/
theorem finalize_gating_witness :
    finalizeDebt recOne 2
      = .ok ⟨"fam", [⟨"B", "A", 15, true, some 1⟩], true, some 2, 2⟩
    ∧ ∃ msg, finalizeDebt
        ⟨"fam", [⟨"B", "A", 15, true, some 1⟩], true, some 2, 2⟩ 3
          = .error msg := by
  have h := finalize_gating recOne 2
  have hok := h.2.2.1 rfl (by simp [recOne])
  refine ⟨hok, ?_⟩
  exact ((finalize_gating recOne 2).2.2.2 _ hok).2 3

/-- C6: settle fails on a finalized record, on an out-of-bounds index, and
on an already-settled transaction; otherwise it succeeds, marking the
indexed transaction settled with its `settledAt` stamp and refreshing
`updatedAt`, and settling the same index a second time fails. -/
theorem settle_transitions (d : DebtRecord) (i : Int) (now : Nat) :
    (d.isFinalized = true →
      settleDebt d i now = .error "This debt record is already finalized")
    ∧ (d.isFinalized = false → (i < 0 ∨ (d.debts.length : Int) ≤ i) →
        settleDebt d i now = .error "Invalid debt index")
    ∧ (d.isFinalized = false → 0 ≤ i → i < (d.debts.length : Int) →
        (d.debts.getD i.toNat default).settled = true →
        settleDebt d i now = .error "This debt is already settled")
    ∧ (d.isFinalized = false → 0 ≤ i → i < (d.debts.length : Int) →
        (d.debts.getD i.toNat default).settled = false →
        settleDebt d i now
          = .ok { d with
                  debts := d.debts.set i.toNat
                    { d.debts.getD i.toNat default with
                      settled := true, settledAt := some now },
                  updatedAt := now }
        ∧ ∀ n2 : Nat,
            settleDebt { d with
                debts := d.debts.set i.toNat
                  { d.debts.getD i.toNat default with
                    settled := true, settledAt := some now },
                updatedAt := now } i n2
              = .error "This debt is already settled") := by
  refine ⟨?_, ?_, ?_, ?_⟩
  · intro h
    unfold settleDebt
    rw [if_pos h]
  · intro hf hb
    unfold settleDebt
    rw [if_neg (by simp [hf]), if_pos hb]
  · intro hf h0 h1 hs
    unfold settleDebt
    rw [if_neg (by simp [hf]),
        if_neg (by rw [not_or, not_lt, not_le]; exact ⟨h0, h1⟩),
        if_pos hs]
  · intro hf h0 h1 hs
    have hlt : i.toNat < d.debts.length := by omega
    constructor
    · unfold settleDebt
      rw [if_neg (by simp [hf]),
          if_neg (by rw [not_or, not_lt, not_le]; exact ⟨h0, h1⟩),
          if_neg (by rw [hs]; simp)]
    · intro n2
      unfold settleDebt
      rw [if_neg (by simp [hf]),
          if_neg (by simp only [List.length_set]
                     rw [not_or, not_lt, not_le]; exact ⟨h0, h1⟩),
          if_pos (by simp only [List.length_set]
                     rw [getD_set_self _ _ _ hlt])]

/-- Witness for C6 at a concrete record: settle succeeds on an unsettled
index and the second settle of the same index fails. -/
theorem settle_transitions_witness :
    settleDebt recTwo 0 1
      = .ok ⟨"fam", [⟨"B", "A", 15, true, some 1⟩], false, none, 1⟩
    ∧ settleDebt ⟨"fam", [⟨"B", "A", 15, true, some 1⟩], false, none, 1⟩ 0 2
      = .error "This debt is already settled" := by
  have h := (settle_transitions recTwo 0 1).2.2.2 rfl (by norm_num)
    (by simp [recTwo]) rfl
  exact ⟨h.1, h.2 2⟩

theorem exampleMatrix_eval : calculateRawDebts exampleExpenses = exampleMatrix := by
  simp only [calculateRawDebts, exampleExpenses, exampleExpense1, exampleExpense2,
    exampleMatrix, processExpense, processShare, addDebt, owedAmount, findVal,
    setVal, String.reduceEq, reduceIte, List.foldl_cons, List.foldl_nil,
    Option.getD_some, Option.getD_none]
  norm_num

theorem exampleSimplify_eval :
    simplifyDebts exampleMatrix = [⟨"C", "A", 45⟩, ⟨"B", "A", 15⟩] := by
  simp only [simplifyDebts, exampleMatrix, computeBalances, processRow, processEntry,
    ensureKey, addTo, findVal, setVal, String.reduceEq, reduceIte, List.foldl_cons,
    List.foldl_nil, Option.getD_some, Option.getD_none, List.append_nil,
    List.cons_append, List.nil_append]
  norm_num [partitionBal, sortDesc, insertEntry, settleLoop, settleIter, round2,
    min_def, List.foldl_cons, List.foldl_nil]

theorem selfOnly_simplify_eval :
    simplifyDebts (calculateRawDebts selfOnlyExpenses) = [] := by
  simp only [calculateRawDebts, selfOnlyExpenses, selfOnlyExpense,
    processExpense, processShare, findVal, setVal, String.reduceEq, reduceIte,
    List.foldl_cons, List.foldl_nil]
  simp [simplifyDebts, computeBalances, partitionBal, sortDesc, settleLoop]

/-- C1: on the three-user example input, `calculateRawDebts` produces the
matrix B→A 30, C→A 30, C→B 15, and `simplifyDebts` of that matrix returns
exactly the ordered list [(C, A, 45.00), (B, A, 15.00)]. -/
theorem example_scenario_correct :
    calculateRawDebts exampleExpenses = exampleMatrix
    ∧ simplifyDebts exampleMatrix = [⟨"C", "A", 45⟩, ⟨"B", "A", 15⟩] :=
  ⟨exampleMatrix_eval, exampleSimplify_eval⟩

/-- C2: for every raw debt matrix, the net balances `simplifyDebts` derives
sum to exactly zero (in the exact rational arithmetic of this embedding). -/
theorem netBalances_sum_zero (m : DebtMap) :
    ((computeBalances m).map Prod.snd).sum = 0 := by
  unfold computeBalances
  rw [sum_foldl_processRow]
  simp

/-- C3: for every input matrix, with N the number of users whose derived
net balance has magnitude above 0.01 (debtors plus creditors),
`simplifyDebts` emits at most N − 1 transactions. -/
theorem txn_count_bound (m : DebtMap) :
    (simplifyDebts m).length
      ≤ ((partitionBal (computeBalances m)).1.length
          + (partitionBal (computeBalances m)).2.length) - 1 := by
  simp only [simplifyDebts]
  have h := settleLoop_length_le
    (sortDesc (partitionBal (computeBalances m)).1)
    (sortDesc (partitionBal (computeBalances m)).2)
  rwa [sortDesc_length, sortDesc_length] at h

/-- C4 counterexample: a non-empty expense set (a single self-only expense)
yields an empty simplified transaction list, yet record creation is NOT
rejected — a record with an empty transaction list is persisted. -/
theorem create_empty_txns_counterexample :
    simplifyDebts (calculateRawDebts selfOnlyExpenses) = []
    ∧ createDebtRecord "fam" selfOnlyExpenses 0
        = .ok ⟨"fam", [], false, none, 0⟩ := by
  refine ⟨selfOnly_simplify_eval, ?_⟩
  unfold createDebtRecord
  rw [if_neg (by simp [selfOnlyExpenses])]
  rw [selfOnly_simplify_eval]
  rfl

/-- C4 amended: creation is rejected (as "No expenses found for the given
period") exactly when the expense list for the period is empty; any
non-empty expense list — even one whose simplified transaction list is
empty — persists a record holding the simplified transactions. -/
theorem create_rejects_only_empty_expense_list :
    createDebtRecord "fam" [] 0 = .error "No expenses found for the given period"
    ∧ ∀ (fid : String) (es : List Expense) (now : Nat), es ≠ [] →
        createDebtRecord fid es now
          = .ok ⟨fid, (simplifyDebts (calculateRawDebts es)).map mkTxnRec,
                 false, none, now⟩ := by
  constructor
  · rfl
  · intro fid es now hes
    unfold createDebtRecord
    rw [if_neg (by simpa using hes)]

/-- Witness for the amended C4: the self-only expense list is non-empty and
its creation persists a record with an empty transaction list. -/
theorem create_rejects_only_empty_witness :
    createDebtRecord "fam" selfOnlyExpenses 5
      = .ok ⟨"fam", [], false, none, 5⟩ := by
  have h := create_rejects_only_empty_expense_list.2 "fam" selfOnlyExpenses 5
    (by simp [selfOnlyExpenses])
  rw [h, selfOnly_simplify_eval]
  rfl

/-- C7 counterexample: an expense passing the creation-time fixed-share
validation (shares sum exactly to the total) produces a negative raw debt
matrix entry, because an individual fixed share may be negative. -/
theorem matrix_nonneg_counterexample :
    validExpense badFixedExpense
    ∧ lookup2 (calculateRawDebts [badFixedExpense]) "B" "A" = some (-50)
    ∧ (-50 : ℚ) < 0 := by
  refine ⟨Or.inr (Or.inr ⟨?_, ?_⟩), ?_, by norm_num⟩
  · intro s hs
    simp only [badFixedExpense, List.mem_cons, List.not_mem_nil, or_false] at hs
    rcases hs with h | h <;> simp [h]
  · simp only [badFixedExpense, List.map_cons, List.map_nil, List.sum_cons,
      List.sum_nil]
    norm_num
  · simp only [calculateRawDebts, badFixedExpense, lookup2, processExpense,
      processShare, addDebt, owedAmount, findVal, setVal, String.reduceEq,
      reduceIte, List.foldl_cons, List.foldl_nil, Option.getD_some,
      Option.getD_none]
    norm_num

/-- C7 amended: under the creation-time validation invariants strengthened
by non-negativity of the expense amount and of every share value, every
raw debt matrix entry is non-negative. -/
theorem matrix_nonneg_amended (es : List Expense)
    (_hval : ∀ e ∈ es, validExpense e)
    (ha : ∀ e ∈ es, 0 ≤ e.amount)
    (hv : ∀ e ∈ es, ∀ s ∈ e.sharedAmongst, 0 ≤ s.shareValue) :
    ∀ row ∈ calculateRawDebts es, ∀ cell ∈ row.2, 0 ≤ cell.2 :=
  calculateRawDebts_nonneg es ha hv

/-- Witness for the amended C7 on the worked example: the entry B→A of the
example matrix is non-negative. -/
theorem matrix_nonneg_witness : (0 : ℚ) ≤ 30 := by
  have h := matrix_nonneg_amended exampleExpenses ?_ ?_ ?_
  · exact h ("B", [("A", 30)]) (by rw [exampleMatrix_eval]; simp [exampleMatrix])
      ("A", 30) (by simp)
  · intro e he
    simp only [exampleExpenses, List.mem_cons, List.not_mem_nil, or_false] at he
    rcases he with h | h <;> rw [h]
    · left
      intro s hs
      simp only [exampleExpense1, List.mem_cons, List.not_mem_nil, or_false] at hs
      rcases hs with h2 | h2 | h2 <;> rw [h2] <;> norm_num [exampleExpense1]
    · left
      intro s hs
      simp only [exampleExpense2, List.mem_cons, List.not_mem_nil, or_false] at hs
      rcases hs with h2 | h2 <;> rw [h2] <;> norm_num [exampleExpense2]
  · intro e he
    simp only [exampleExpenses, List.mem_cons, List.not_mem_nil, or_false] at he
    rcases he with h | h <;> rw [h] <;> norm_num [exampleExpense1, exampleExpense2]
  · intro e he
    simp only [exampleExpenses, List.mem_cons, List.not_mem_nil, or_false] at he
    rcases he with h | h <;> rw [h] <;> intro s hs <;>
      simp only [exampleExpense1, exampleExpense2, List.mem_cons,
        List.not_mem_nil, or_false] at hs
    · rcases hs with h2 | h2 | h2 <;> rw [h2] <;> norm_num
    · rcases hs with h2 | h2 <;> rw [h2] <;> norm_num

/-- C8: `calculateRawDebts` is order-independent — permuting the expenses
and the shares within each expense leaves the matrix extensionally equal
(same debtor–creditor pairs, same accumulated amounts). -/
theorem matrix_order_independent (es₁ es₂ : List Expense)
    (h : ∃ es₃, List.Forall₂ ExpensePerm es₁ es₃ ∧ es₃.Perm es₂)
    (d c : String) :
    lookup2 (calculateRawDebts es₁) d c
      = lookup2 (calculateRawDebts es₂) d c := by
  obtain ⟨es₃, h12, h23⟩ := h
  apply option_eq_of_isSome_getD
  · rw [isSome_calculateRawDebts, isSome_calculateRawDebts]
    have e1 := forall₂_any_eq (fun a b hab => expensePerm_any_eq d c a b hab) h12
    have e2 := perm_any_eq (g := fun e =>
      e.sharedAmongst.any (contributes e.creator d c)) h23
    rw [e1, e2]
  · rw [getD_calculateRawDebts, getD_calculateRawDebts]
    have e1 := forall₂_map_sum_eq (fun a b hab => expensePerm_sum_eq d c a b hab) h12
    have e2 := (h23.map (fun e =>
      (e.sharedAmongst.map (shareContrib e.creator e.amount d c)).sum)).sum_eq
    rw [e1, e2]

/-- Witness for C8: the example expense list against its reordered variant,
at the matrix entry B→A. -/
theorem matrix_order_independent_witness :
    lookup2 (calculateRawDebts exampleExpenses) "B" "A"
      = lookup2 (calculateRawDebts exampleExpensesPerm) "B" "A" := by
  apply matrix_order_independent
  refine ⟨[exampleExpense1swapped, exampleExpense2], ?_, ?_⟩
  · refine List.Forall₂.cons ⟨rfl, rfl, ?_⟩
      (List.Forall₂.cons ⟨rfl, rfl, List.Perm.refl _⟩ List.Forall₂.nil)
    show ([⟨"A", "equal", 1/3⟩, ⟨"B", "equal", 1/3⟩, ⟨"C", "equal", 1/3⟩] :
        List Share).Perm
      [⟨"B", "equal", 1/3⟩, ⟨"A", "equal", 1/3⟩, ⟨"C", "equal", 1/3⟩]
    exact List.Perm.swap _ _ _
  · show List.Perm [exampleExpense1swapped, exampleExpense2]
      [exampleExpense2, exampleExpense1swapped]
    exact List.Perm.swap _ _ _

/-- C9: the matching loop terminates — it exits as soon as either list is
empty, each iteration is one `settleIter` step, every step strictly shrinks
the combined list length, and the side achieving the minimum is evicted
(its remainder falls to zero, below the 0.01 threshold). -/
theorem simplify_terminates :
    (∀ cs : List Entry, settleLoop [] cs = [])
    ∧ (∀ ds : List Entry, settleLoop ds [] = [])
    ∧ ∀ (d c : Entry) (ds cs : List Entry),
        settleLoop (d :: ds) (c :: cs)
          = (settleIter d c ds cs).1 ::
              settleLoop (settleIter d c ds cs).2.1 (settleIter d c ds cs).2.2
        ∧ (settleIter d c ds cs).2.1.length + (settleIter d c ds cs).2.2.length
            < (d :: ds).length + (c :: cs).length
        ∧ (d.amount ≤ c.amount → (settleIter d c ds cs).2.1 = ds)
        ∧ (c.amount ≤ d.amount → (settleIter d c ds cs).2.2 = cs) := by
  refine ⟨fun cs => by simp [settleLoop], fun ds => ?_,
    fun d c ds cs => ⟨?_, settleIter_sum_lt d c ds cs, ?_, ?_⟩⟩
  · cases ds <;> simp [settleLoop]
  · rw [settleLoop]
  · intro h
    show (if d.amount - min d.amount c.amount < 1/100 then ds else _) = ds
    rw [min_eq_left h, sub_self, if_pos (by norm_num)]
  · intro h
    show (if c.amount - min d.amount c.amount < 1/100 then cs else _) = cs
    rw [min_eq_right h, sub_self, if_pos (by norm_num)]

/-- Witness for C9 at concrete inputs: the loop exits on an empty debtor
list, and the debtor achieving the minimum is evicted. -/
theorem simplify_terminates_witness :
    settleLoop [] [⟨"A", (60 : ℚ)⟩] = []
    ∧ (settleIter ⟨"C", 45⟩ ⟨"A", 60⟩ [] []).2.1 = [] :=
  ⟨simplify_terminates.1 _,
   (simplify_terminates.2.2 ⟨"C", 45⟩ ⟨"A", 60⟩ [] []).2.2.1 (by norm_num)⟩

/-- C10: every transaction emitted by `simplifyDebts` has amount at least
0.01 (also after rounding) and distinct endpoints. -/
theorem txn_positive_distinct (m : DebtMap) (t : Txn)
    (ht : t ∈ simplifyDebts m) :
    1/100 ≤ t.amount ∧ t.from_ ≠ t.to_ := by
  simp only [simplifyDebts] at ht
  have hnodup := nodup_keys_computeBalances m
  have hd : ∀ e ∈ sortDesc (partitionBal (computeBalances m)).1,
      1/100 ≤ e.amount := by
    intro e he
    rw [mem_sortDesc, partitionBal_eq] at he
    exact le_of_lt (mem_debtors (computeBalances m) e he).2
  have hc : ∀ e ∈ sortDesc (partitionBal (computeBalances m)).2,
      1/100 ≤ e.amount := by
    intro e he
    rw [mem_sortDesc, partitionBal_eq] at he
    exact le_of_lt (mem_creditors (computeBalances m) e he).2
  obtain ⟨hamt, hfrom, hto⟩ := settleLoop_mem _ _ hd hc t ht
  refine ⟨hamt, ?_⟩
  intro heq
  have hfrom' : t.from_ ∈ ((partitionBal (computeBalances m)).1).map Entry.user :=
    ((sortDesc_perm _).map Entry.user).mem_iff.mp hfrom
  have hto' : t.to_ ∈ ((partitionBal (computeBalances m)).2).map Entry.user :=
    ((sortDesc_perm _).map Entry.user).mem_iff.mp hto
  rw [partitionBal_eq] at hfrom' hto'
  rcases List.mem_map.mp hfrom' with ⟨e1, he1, hu1⟩
  rcases List.mem_map.mp hto' with ⟨e2, he2, hu2⟩
  obtain ⟨hm1, ha1⟩ := mem_debtors (computeBalances m) e1 he1
  obtain ⟨hm2, ha2⟩ := mem_creditors (computeBalances m) e2 he2
  have hu : e2.user = e1.user := by rw [hu1, hu2, heq]
  rw [hu] at hm2
  have heqv := nodup_keys_unique (computeBalances m) hnodup e1.user
    (-e1.amount) e2.amount hm1 hm2
  linarith

/-- Witness for C10 at a concrete matrix: the first transaction of the
example simplification has amount ≥ 0.01 and distinct endpoints. -/
theorem txn_positive_distinct_witness :
    1/100 ≤ ((⟨"C", "A", 45⟩ : Txn)).amount
    ∧ (⟨"C", "A", 45⟩ : Txn).from_ ≠ (⟨"C", "A", 45⟩ : Txn).to_ :=
  txn_positive_distinct exampleMatrix ⟨"C", "A", 45⟩
    (by rw [exampleSimplify_eval]; simp)

end ExpenseTracker
